import Mathlib

/-!
Verification development for the image similarity search engine
(`app.py` / `searchAPP.py`).

The engine keeps a Python dict mapping an image identifier to a
precomputed feature grid, mirrors it to a pickle snapshot on disk,
and answers queries by a linear scan: compute a similarity score
per entry, keep the ones at or above a threshold, sort descending
by score with Python's stable sort, and truncate to a limit.

Modelling conventions:
- Python dicts are insertion-ordered association lists (`lookupA`,
  `insertA`); `insertA` updates in place when the key exists and
  appends otherwise, exactly like CPython dict assignment.
- The pickle file on disk is `Option (Option (Blob Feat))`:
  `none` means the file is absent, `some none` means present but
  undecodable (pickle.load raises), `some (some b)` means present
  and decoding to `b`.
- External collaborators (Google Drive listing/download, `cv2`
  decoding, `skimage` SSIM) are parameters of the model: fallible
  calls become `Option`-valued functions, `none` standing for a
  raised exception.
- Python's `list.sort(key=lambda x: x[1], reverse=True)` is a
  stable descending sort; it is modelled by the stable insertion
  sort `sortDesc`.
-/

namespace SearchApp

/-- Raw image bytes, as downloaded from the source (uint8 buffer). -/
abbrev Bytes := List Nat

/-- One entry of the Drive folder listing, as returned by
`list_images_in_folder` (fields `id`, `name`, `mimeType`). -/
structure DriveFile where
  id : String
  name : String
  mime : String
deriving DecidableEq

/-- Metadata stored per indexed image in `self.image_metadata`:
`{'name': ..., 'mimeType': ...}`. -/
structure FileMeta where
  name : String
  mime : String
deriving DecidableEq

/-- Dict lookup, `d.get(k)` / `k in d` on an insertion-ordered dict. -/
def lookupA {β : Type _} (k : String) : List (String × β) → Option β
  | [] => none
  | p :: t => if p.1 = k then some p.2 else lookupA k t

/-- Dict assignment `d[k] = v`: replaces the value in place when the key
is present (keeping its position), appends at the end otherwise —
CPython dict semantics. -/
def insertA {β : Type _} (k : String) (v : β) : List (String × β) → List (String × β)
  | [] => [(k, v)]
  | p :: t => if p.1 = k then (k, v) :: t else p :: insertA k v t

/-- Content of the pickle snapshot written by `build_index`:
`{'features': ..., 'metadata': ...}`. -/
structure Blob (Feat : Type) where
  features : List (String × Feat)
  metadata : List (String × FileMeta)
deriving DecidableEq

/-- State of the snapshot file on disk: absent, present-but-corrupt
(pickle.load raises), or present and decodable. -/
abbrev CacheFile (Feat : Type) := Option (Option (Blob Feat))

/-- Result of `pickle.load` on an open file: the decoded payload, or a
raised exception when the bytes do not decode. -/
def loadPickle {α : Type _} : Option α → Except Unit α
  | some a => .ok a
  | none => .error ()

/-- Snapshot load step of `build_index`: when the cache file exists it is
unpickled (raising on corrupt data — there is no try/except around
`pickle.load` in the source); when absent, features and metadata start
empty. -/
def loadCache {Feat : Type} : CacheFile Feat → Except Unit (Blob Feat)
  | none => .ok ⟨[], []⟩
  | some f => loadPickle f

/-- Snapshot save step of `build_index`: `pickle.dump({'features': ...,
'metadata': ...}, f)` overwrites the cache file with the given blob. -/
def writeCache {Feat : Type} (b : Blob Feat) : CacheFile Feat := some (some b)

/-- External collaborators of `GoogleDriveImageSearchEngine`: the folder
listing, the byte downloader (`download_image`; `none` = raised
transport error), the feature extractor (`preprocess_image_from_buffer`;
`none` = raised decode error), and the scalar similarity
(`compute_similarity` via skimage SSIM; `none` = raised comparison
error such as a shape mismatch). -/
structure DriveEnv (Feat : Type) where
  listing : List DriveFile
  fetch : String → Option Bytes
  extract : Bytes → Option Feat
  sim : Feat → Feat → Option ℚ

/-- Mutable fields of the engine object touched by indexing and search:
`self.image_features`, `self.image_metadata`, `self.is_indexed`. -/
structure GEngineState (Feat : Type) where
  features : List (String × Feat)
  metadata : List (String × FileMeta)
  isIndexed : Bool
deriving DecidableEq

/-- User-visible log/status messages emitted by `build_index`
(`st.info`, `st.success`, `st.warning`). -/
inductive Msg where
  | noImages : Msg
  | allIndexed : Msg
  | indexedNew : Nat → Msg
  | errorProcessing : String → Msg
deriving DecidableEq

/-- Recognizes the per-item warning emitted when processing one file
fails (`st.warning(f"Error processing {file['name']}: {e}")`). -/
def isWarn : Msg → Bool
  | .errorProcessing _ => true
  | _ => false

/-- Per-item body of the indexing loop: download the bytes then extract
the feature grid; `none` when either step raises. -/
def processOne {Feat : Type} (env : DriveEnv Feat) (f : DriveFile) : Option Feat :=
  (env.fetch f.id).bind env.extract

/-- Indexing loop of `build_index`: for each new file, try to download
and preprocess it; on success store the feature and its metadata in the
dicts, on any exception emit a warning and continue with the next file. -/
def processFiles {Feat : Type} (env : DriveEnv Feat) :
    List DriveFile → List (String × Feat) → List (String × FileMeta) → List Msg →
    List (String × Feat) × List (String × FileMeta) × List Msg
  | [], feats, meta, msgs => (feats, meta, msgs)
  | f :: rest, feats, meta, msgs =>
    match processOne env f with
    | some v =>
        processFiles env rest (insertA f.id v feats) (insertA f.id ⟨f.name, f.mime⟩ meta) msgs
    | none =>
        processFiles env rest feats meta (msgs ++ [Msg.errorProcessing f.name])

/-- Files of the listing not yet indexed:
`[f for f in files if f['id'] not in self.image_metadata]`. -/
def newFilesOf {Feat : Type} (env : DriveEnv Feat) (meta : List (String × FileMeta)) :
    List DriveFile :=
  env.listing.filter (fun f => (lookupA f.id meta).isNone)

/-- The incremental `build_index` of `GoogleDriveImageSearchEngine`:
load the snapshot if present (propagating a pickle error), list the
folder, return early when the listing is empty or everything is already
indexed, otherwise process only the new files, write the snapshot back
and mark the engine indexed. Returns the updated engine state, the new
cache-file state, and the emitted messages. -/
def buildIndexG {Feat : Type} (env : DriveEnv Feat) (cache : CacheFile Feat)
    (st : GEngineState Feat) :
    Except Unit (GEngineState Feat × CacheFile Feat × List Msg) := do
  let blob ← loadCache cache
  let st1 : GEngineState Feat := ⟨blob.features, blob.metadata, st.isIndexed⟩
  if env.listing.isEmpty then
    return (st1, cache, [Msg.noImages])
  else
    let newFiles := newFilesOf env st1.metadata
    if newFiles.isEmpty then
      return (⟨st1.features, st1.metadata, true⟩, cache, [Msg.allIndexed])
    else
      let out := processFiles env newFiles st1.features st1.metadata []
      return (⟨out.1, out.2.1, true⟩, writeCache ⟨out.1, out.2.1⟩,
              out.2.2 ++ [Msg.indexedNew newFiles.length])

/-- Feature dict of a finished build; an aborted build (propagated load
error) contributes no entries. -/
def featuresOf {Feat : Type} :
    Except Unit (GEngineState Feat × CacheFile Feat × List Msg) → List (String × Feat)
  | .ok out => out.1.features
  | .error _ => []

/-- A forced full rebuild: the prior snapshot is discarded and every
listed identifier is reprocessed from scratch (the `force_rebuild=True`
path of `app.py`, where `self.image_features = {}` and every listed file
is processed; expressed here as a build against an absent snapshot). -/
def fullRebuildG {Feat : Type} (env : DriveEnv Feat) (st : GEngineState Feat) :
    Except Unit (GEngineState Feat × CacheFile Feat × List Msg) :=
  buildIndexG env none st

/-- The value the Python `build_index` hands back to its caller: every
`return` statement in both source files is bare and the function
otherwise falls off the end, so the caller always receives `None`. -/
def buildIndexReturnValue {Feat α : Type} (_env : DriveEnv Feat) (_cache : CacheFile Feat)
    (_st : GEngineState Feat) : Option α := none

/-- Modelled from the spec: `BuildReport {added_count, total_count}`,
the record the spec says `build_index` returns. Absent from the source;
defined only to state what the code would have to return. -/
structure BuildReport where
  addedCount : Nat
  totalCount : Nat
deriving DecidableEq

/-- Stable descending insertion of a scored entry: the new element goes
before the first strictly smaller score and after every score ≥ its
own. -/
def insertDesc {α : Type _} (x : α × ℚ) : List (α × ℚ) → List (α × ℚ)
  | [] => [x]
  | y :: ys => if x.2 < y.2 then y :: insertDesc x ys else x :: y :: ys

/-- Stable sort by score descending — the model of Python's
`results.sort(key=lambda x: x[1], reverse=True)`, which is stable and
keeps equal-score entries in their original relative order. -/
def sortDesc {α : Type _} : List (α × ℚ) → List (α × ℚ)
  | [] => []
  | x :: xs => insertDesc x (sortDesc xs)

/-- Linear scan of `search`: for each cached entry compute the
similarity against the query (a raised comparison error skips the
entry), keep it iff the score is ≥ the threshold; entries stay in dict
iteration order. -/
def scanResults {Feat : Type} (sim : Feat → Feat → Option ℚ) (q : Feat) (t : ℚ) :
    List (String × Feat) → List (String × ℚ) :=
  List.filterMap (fun p =>
    match sim q p.2 with
    | some s => if t ≤ s then some (p.1, s) else none
    | none => none)

/-- The `search` method's ranking: scan, filter by threshold, stable
sort by score descending, truncate to `limit` (`results[:limit]`). -/
def search {Feat : Type} (sim : Feat → Feat → Option ℚ) (q : Feat) (t : ℚ) (lim : Nat)
    (feats : List (String × Feat)) : List (String × ℚ) :=
  (sortDesc (scanResults sim q t feats)).take lim

/-- The `search` method as a state transformer: when the engine is not
yet indexed it first runs `build_index` (mutating the engine), then
ranks against the (possibly updated) feature dict. The query is taken
already preprocessed — query preprocessing reads no engine state. -/
def searchStep {Feat : Type} (env : DriveEnv Feat) (cache : CacheFile Feat)
    (st : GEngineState Feat) (q : Feat) (t : ℚ) (lim : Nat) :
    Except Unit (GEngineState Feat × List (String × ℚ)) :=
  if st.isIndexed then
    .ok (st, search env.sim q t lim st.features)
  else do
    let out ← buildIndexG env cache st
    .ok (out.1, search env.sim q t lim out.1.features)

/-- Dict lookup after dict assignment. -/
theorem lookupA_insertA {β : Type _} (k k' : String) (v : β) (l : List (String × β)) :
    lookupA k (insertA k' v l) = if k' = k then some v else lookupA k l := by
  induction l with
  | nil => simp [insertA, lookupA]
  | cons p t ih =>
      by_cases h : p.1 = k'
      · simp only [insertA, if_pos h]
        by_cases hk : k' = k
        · simp [lookupA, hk]
        · have hpk : ¬ p.1 = k := fun hh => hk (h.symm.trans hh)
          simp [lookupA, hk, hpk]
      · simp only [insertA, if_neg h]
        by_cases hpk : p.1 = k
        · have hkk : ¬ k' = k := fun he => h (hpk.trans he.symm)
          simp [lookupA, hpk, hkk]
        · simp [lookupA, hpk, ih]

/-- Assigning a fresh key grows the dict by one entry. -/
theorem length_insertA {β : Type _} (k : String) (v : β) (l : List (String × β))
    (h : lookupA k l = none) : (insertA k v l).length = l.length + 1 := by
  induction l with
  | nil => simp [insertA]
  | cons p t ih =>
      by_cases hp : p.1 = k
      · simp [lookupA, hp] at h
      · simp [lookupA, hp] at h
        simp [insertA, hp, ih h]

/-- Every entry of a dict after an assignment is the assigned pair or an
old entry. -/
theorem mem_insertA {β : Type _} {q : String × β} {k : String} {v : β}
    {l : List (String × β)} (h : q ∈ insertA k v l) : q = (k, v) ∨ q ∈ l := by
  induction l with
  | nil => simpa [insertA] using h
  | cons p t ih =>
      by_cases hp : p.1 = k
      · simp [insertA, hp] at h
        rcases h with h | h
        · exact Or.inl h
        · exact Or.inr (List.mem_cons_of_mem _ h)
      · simp [insertA, hp] at h
        rcases h with h | h
        · exact Or.inr (by simp [h])
        · rcases ih h with h' | h'
          · exact Or.inl h'
          · exact Or.inr (List.mem_cons_of_mem _ h')

/-- A dict lookup succeeds exactly when some stored entry has the key. -/
theorem lookupA_isSome_iff {β : Type _} (k : String) (l : List (String × β)) :
    (lookupA k l).isSome = true ↔ ∃ p ∈ l, p.1 = k := by
  induction l with
  | nil => simp [lookupA]
  | cons p t ih =>
      by_cases hp : p.1 = k
      · simp [lookupA, hp]
      · simp [lookupA, hp, ih]

/-- Stable descending insertion keeps membership. -/
theorem mem_insertDesc {α : Type _} {a x : α × ℚ} {l : List (α × ℚ)} :
    a ∈ insertDesc x l ↔ a = x ∨ a ∈ l := by
  induction l with
  | nil => simp [insertDesc]
  | cons y ys ih =>
      by_cases h : x.2 < y.2
      · simp [insertDesc, h, ih]
        tauto
      · simp [insertDesc, h]

/-- Stable descending insertion preserves descending sortedness. -/
theorem pairwise_insertDesc {α : Type _} (x : α × ℚ) (l : List (α × ℚ))
    (h : l.Pairwise (fun a b => b.2 ≤ a.2)) :
    (insertDesc x l).Pairwise (fun a b => b.2 ≤ a.2) := by
  induction l with
  | nil => simp [insertDesc]
  | cons y ys ih =>
      rcases List.pairwise_cons.mp h with ⟨hy, hys⟩
      by_cases hlt : x.2 < y.2
      · simp only [insertDesc, if_pos hlt]
        refine List.pairwise_cons.mpr ⟨?_, ih hys⟩
        intro z hz
        rcases mem_insertDesc.mp hz with rfl | hz'
        · exact le_of_lt hlt
        · exact hy z hz'
      · simp only [insertDesc, if_neg hlt]
        refine List.pairwise_cons.mpr ⟨?_, h⟩
        intro z hz
        rcases List.mem_cons.mp hz with rfl | hz'
        · exact le_of_not_lt hlt
        · exact le_trans (hy z hz') (le_of_not_lt hlt)

/-- The stable descending sort keeps membership. -/
theorem mem_sortDesc {α : Type _} {a : α × ℚ} {l : List (α × ℚ)} :
    a ∈ sortDesc l ↔ a ∈ l := by
  induction l with
  | nil => simp [sortDesc]
  | cons x xs ih => simp [sortDesc, mem_insertDesc, ih]

/-- The stable descending sort is sorted by score descending. -/
theorem pairwise_sortDesc {α : Type _} (l : List (α × ℚ)) :
    (sortDesc l).Pairwise (fun a b => b.2 ≤ a.2) := by
  induction l with
  | nil => simp [sortDesc]
  | cons x xs ih => exact pairwise_insertDesc x (sortDesc xs) ih

/-- Stability of the insertion step: among entries of any one score the
inserted element lands first, and the old relative order survives. -/
theorem filter_insertDesc {α : Type _} (x : α × ℚ) (l : List (α × ℚ)) (s : ℚ) :
    (insertDesc x l).filter (fun p => decide (p.2 = s)) =
      if x.2 = s then x :: l.filter (fun p => decide (p.2 = s))
      else l.filter (fun p => decide (p.2 = s)) := by
  induction l with
  | nil =>
      by_cases hx : x.2 = s <;> simp [insertDesc, hx]
  | cons y ys ih =>
      by_cases hlt : x.2 < y.2
      · simp only [insertDesc, if_pos hlt]
        by_cases hys : y.2 = s
        · have hx : ¬ x.2 = s := by
            intro hxs
            rw [hxs, hys] at hlt
            exact lt_irrefl s hlt
          simp [List.filter_cons, hys, ih, hx]
        · by_cases hx : x.2 = s <;> simp [List.filter_cons, hys, ih, hx]
      · simp only [insertDesc, if_neg hlt]
        by_cases hx : x.2 = s <;> by_cases hys : y.2 = s <;>
          simp [List.filter_cons, hx, hys]

/-- Stability of the descending sort: restricted to the entries of any
one score, sorting is the identity — equal-score entries keep their
original (dict-iteration) relative order. -/
theorem filter_sortDesc {α : Type _} (l : List (α × ℚ)) (s : ℚ) :
    (sortDesc l).filter (fun p => decide (p.2 = s)) =
      l.filter (fun p => decide (p.2 = s)) := by
  induction l with
  | nil => simp [sortDesc]
  | cons x xs ih =>
      by_cases hx : x.2 = s <;>
        simp [sortDesc, filter_insertDesc, hx, List.filter, ih]

/-- Every entry the scan emits clears the threshold. -/
theorem scanResults_score {Feat : Type} (sim : Feat → Feat → Option ℚ) (q : Feat)
    (t : ℚ) (feats : List (String × Feat)) :
    ∀ p ∈ scanResults sim q t feats, t ≤ p.2 := by
  intro p hp
  rcases List.mem_filterMap.mp hp with ⟨a, _, ha⟩
  rcases h : sim q a.2 with _ | s
  · rw [h] at ha
    simp at ha
  · rw [h] at ha
    by_cases hts : t ≤ s
    · simp [hts] at ha
      rw [← ha]
      exact hts
    · simp [hts] at ha

/-- C1: for every index, query feature, threshold and limit, `search`
returns at most `limit` entries, every returned score is ≥ the
threshold, and the returned entries are ordered by score descending. -/
theorem claim1_search_limit_threshold_sorted (Feat : Type)
    (sim : Feat → Feat → Option ℚ) (q : Feat) (t : ℚ) (lim : Nat)
    (feats : List (String × Feat)) :
    (search sim q t lim feats).length ≤ lim ∧
    (∀ p ∈ search sim q t lim feats, t ≤ p.2) ∧
    (search sim q t lim feats).Pairwise (fun a b => b.2 ≤ a.2) := by
  refine ⟨List.length_take_le _ _, ?_, ?_⟩
  · intro p hp
    exact scanResults_score sim q t feats p (mem_sortDesc.mp (List.mem_of_mem_take hp))
  · exact List.Pairwise.sublist (List.take_sublist _ _) (pairwise_sortDesc _)

/-- Witness for C1 at a concrete two-entry index with limit 1 and
threshold 1. -/
theorem claim1_witness :
    (search (fun _ f => some ((f : ℚ))) (0 : Nat) 1 1 [("a", 2), ("b", 5)]).length ≤ 1 ∧
    (∀ p ∈ search (fun _ f => some ((f : ℚ))) (0 : Nat) 1 1 [("a", 2), ("b", 5)],
      (1 : ℚ) ≤ p.2) ∧
    (search (fun _ f => some ((f : ℚ))) (0 : Nat) 1 1
      [("a", 2), ("b", 5)]).Pairwise (fun a b => b.2 ≤ a.2) :=
  claim1_search_limit_threshold_sorted Nat (fun _ f => some ((f : ℚ))) 0 1 1
    [("a", 2), ("b", 5)]

/-- C6: the ranking `search` truncates is the stable descending sort of
the scan, and restricted to any one score value the sort is the
identity — so two entries with equal scores are returned in the
index's (dict-iteration) order, since the scan itself is a
filterMap that preserves that order. -/
theorem claim6_search_tiebreak_stable (Feat : Type)
    (sim : Feat → Feat → Option ℚ) (q : Feat) (t : ℚ) (lim : Nat)
    (feats : List (String × Feat)) (s : ℚ) :
    search sim q t lim feats = (sortDesc (scanResults sim q t feats)).take lim ∧
    (sortDesc (scanResults sim q t feats)).filter (fun p => decide (p.2 = s)) =
      (scanResults sim q t feats).filter (fun p => decide (p.2 = s)) :=
  ⟨rfl, filter_sortDesc _ _⟩

/-- C8: `search` on an empty index returns the empty list, and when no
entry's score reaches the threshold it also returns the empty list —
both as ordinary values of the total ranking function, not errors. -/
theorem claim8_search_empty_results (Feat : Type)
    (sim : Feat → Feat → Option ℚ) (q : Feat) (t : ℚ) (lim : Nat) :
    search sim q t lim [] = [] ∧
    ∀ feats : List (String × Feat),
      (∀ p ∈ feats, ∀ sc, sim q p.2 = some sc → sc < t) →
      search sim q t lim feats = [] := by
  constructor
  · simp [search, scanResults, sortDesc]
  · intro feats h
    have hscan : scanResults sim q t feats = [] := by
      refine List.filterMap_eq_nil_iff.mpr ?_
      intro a ha
      rcases hs : sim q a.2 with _ | sc
      · simp [hs]
      · have hlt := h a ha sc hs
        simp [hs, not_le.mpr hlt]
    simp [search, hscan, sortDesc]

/-- Witness for C8: an empty index, and a one-entry index whose only
score 0 is below the threshold 1, both yield the empty result. -/
theorem claim8_witness :
    search (fun _ _ => some (0 : ℚ)) (0 : Nat) 1 3 [] = [] ∧
    search (fun _ _ => some (0 : ℚ)) (0 : Nat) 1 3 [("a", 5)] = [] := by
  refine ⟨(claim8_search_empty_results Nat (fun _ _ => some (0 : ℚ)) 0 1 3).1,
    (claim8_search_empty_results Nat (fun _ _ => some (0 : ℚ)) 0 1 3).2 [("a", 5)] ?_⟩
  intro p _ sc hsc
  injection hsc with h
  rw [← h]
  norm_num

/-- C4: persisting an index and reloading it reproduces it exactly
(same keys, same feature representations, same metadata), and saving a
just-loaded index leaves the persisted snapshot equivalent — any later
load sees the same data. -/
theorem claim4_snapshot_roundtrip (Feat : Type) :
    (∀ b : Blob Feat, loadCache (writeCache b) = .ok b) ∧
    (∀ (file : CacheFile Feat) (b : Blob Feat),
      loadCache file = .ok b → loadCache (writeCache b) = loadCache file) := by
  constructor
  · intro b
    rfl
  · intro file b h
    rw [h]
    rfl

/-- Witness for C4: a one-entry snapshot round-trips, and re-saving the
empty index loaded from an absent snapshot is load-equivalent. -/
theorem claim4_witness :
    loadCache (writeCache (⟨[("a", 1)], [("a", ⟨"A", "image/png"⟩)]⟩ : Blob Nat)) =
      .ok ⟨[("a", 1)], [("a", ⟨"A", "image/png"⟩)]⟩ ∧
    loadCache (writeCache (⟨[], []⟩ : Blob Nat)) = loadCache (none : CacheFile Nat) :=
  ⟨(claim4_snapshot_roundtrip Nat).1 ⟨[("a", 1)], [("a", ⟨"A", "image/png"⟩)]⟩,
   (claim4_snapshot_roundtrip Nat).2 none ⟨[], []⟩ rfl⟩

/-- C5 counterexample: with the snapshot file present but undecodable,
`pickle.load` raises and `build_index` propagates the error to its
caller instead of treating the snapshot as empty — refuting the claim
that the load step never raises for a present-but-corrupt snapshot. -/
theorem claim5_counterexample :
    @buildIndexG Nat ⟨[⟨"a", "A", "image/png"⟩], fun _ => some [0], fun _ => some 7,
      fun _ _ => none⟩ (some none) ⟨[], [], false⟩ = .error () := rfl

/-- C5 amended: a missing snapshot is treated as an empty index and a
decodable snapshot loads exactly, but a present-undecodable snapshot
makes the load step raise, and `build_index` propagates that error to
its caller (there is no try/except around `pickle.load`). -/
theorem claim5_amended_load_behavior (Feat : Type) :
    loadCache (none : CacheFile Feat) = .ok ⟨[], []⟩ ∧
    (∀ b : Blob Feat, loadCache (some (some b)) = .ok b) ∧
    loadCache (some (none : Option (Blob Feat))) = .error () ∧
    (∀ (env : DriveEnv Feat) (st : GEngineState Feat),
      buildIndexG env (some none) st = .error ()) :=
  ⟨rfl, fun _ => rfl, rfl, fun _ _ => rfl⟩

/-- C10: when the engine is already indexed, `search` performs no build
and returns with the engine state — features, metadata and the
`is_indexed` flag — exactly as it was. -/
theorem claim10_search_frame (Feat : Type) (env : DriveEnv Feat)
    (cache : CacheFile Feat) (st : GEngineState Feat) (q : Feat) (t : ℚ) (lim : Nat)
    (h : st.isIndexed = true) :
    searchStep env cache st q t lim = .ok (st, search env.sim q t lim st.features) := by
  simp [searchStep, h]

/-- Witness for C10 on a concrete indexed engine. -/
theorem claim10_witness :
    @searchStep Nat ⟨[], fun _ => none, fun _ => none, fun _ _ => some 1⟩ none
      ⟨[("a", 3)], [("a", ⟨"A", "image/png"⟩)], true⟩ 3 0 3 =
    .ok (⟨[("a", 3)], [("a", ⟨"A", "image/png"⟩)], true⟩,
      search (fun _ _ => some (1 : ℚ)) 3 0 3 [("a", 3)]) :=
  claim10_search_frame Nat ⟨[], fun _ => none, fun _ => none, fun _ _ => some 1⟩ none
    ⟨[("a", 3)], [("a", ⟨"A", "image/png"⟩)], true⟩ 3 0 3 rfl

/-- Messages emitted by the indexing loop: the incoming messages
followed by one warning per file whose processing raised. -/
theorem processFiles_msgs {Feat : Type} (env : DriveEnv Feat) (files : List DriveFile)
    (feats : List (String × Feat)) (meta : List (String × FileMeta)) (msgs : List Msg) :
    (processFiles env files feats meta msgs).2.2 =
      msgs ++ files.filterMap (fun f =>
        match processOne env f with
        | some _ => none
        | none => some (Msg.errorProcessing f.name)) := by
  induction files generalizing feats meta msgs with
  | nil => simp [processFiles]
  | cons f rest ih =>
      cases h : processOne env f with
      | some v => simp [processFiles, h, ih]
      | none => simp [processFiles, h, ih]

/-- A filterMap has as many outputs as inputs on which the function
succeeds. -/
theorem length_filterMap_eq {α β : Type _} (g : α → Option β) (l : List α) :
    (l.filterMap g).length = (l.filter (fun a => (g a).isSome)).length := by
  induction l with
  | nil => simp
  | cons a t ih =>
      cases h : g a with
      | some b => simp [List.filterMap_cons, List.filter_cons, h, ih]
      | none => simp [List.filterMap_cons, List.filter_cons, h, ih]

/-- Feature-dict size after the indexing loop: when the listed
identifiers are distinct and none is present yet, exactly the
successfully processed files are added. -/
theorem processFiles_length {Feat : Type} (env : DriveEnv Feat) (files : List DriveFile)
    (feats : List (String × Feat)) (meta : List (String × FileMeta)) (msgs : List Msg)
    (hnd : (files.map (fun f => f.id)).Nodup)
    (hfresh : ∀ f ∈ files, lookupA f.id feats = none) :
    (processFiles env files feats meta msgs).1.length =
      feats.length + (files.filter (fun f => (processOne env f).isSome)).length := by
  induction files generalizing feats meta msgs with
  | nil => simp [processFiles]
  | cons f rest ih =>
      have hnd2 : (f.id :: rest.map (fun g => g.id)).Nodup := by
        simpa only [List.map_cons] using hnd
      have hnotin : f.id ∉ rest.map (fun g => g.id) := (List.nodup_cons.mp hnd2).1
      have hnd' : (rest.map (fun g => g.id)).Nodup := (List.nodup_cons.mp hnd2).2
      cases h : processOne env f with
      | some v =>
          have hfresh' : ∀ g ∈ rest, lookupA g.id (insertA f.id v feats) = none := by
            intro g hg
            rw [lookupA_insertA]
            have hne : ¬ f.id = g.id := by
              intro he
              exact hnotin (he ▸ List.mem_map_of_mem (fun x => x.id) hg)
            rw [if_neg hne]
            exact hfresh g (List.mem_cons_of_mem _ hg)
          have hlen : (insertA f.id v feats).length = feats.length + 1 :=
            length_insertA f.id v feats (hfresh f (List.mem_cons_self f rest))
          simp only [processFiles, h]
          rw [ih (insertA f.id v feats) (insertA f.id ⟨f.name, f.mime⟩ meta) msgs hnd'
            hfresh', hlen, List.filter_cons]
          simp [h]
          omega
      | none =>
          have hfresh' : ∀ g ∈ rest, lookupA g.id feats = none := fun g hg =>
            hfresh g (List.mem_cons_of_mem _ hg)
          simp only [processFiles, h]
          rw [ih feats meta (msgs ++ [Msg.errorProcessing f.name]) hnd' hfresh',
            List.filter_cons]
          simp [h]

/-- The scan skips exactly the entries whose comparison raises: scanning
the whole dict gives the same results as scanning only the entries whose
comparison succeeds. -/
theorem scanResults_filter_isSome {Feat : Type} (sim : Feat → Feat → Option ℚ)
    (q : Feat) (t : ℚ) (feats : List (String × Feat)) :
    scanResults sim q t (feats.filter (fun p => (sim q p.2).isSome)) =
      scanResults sim q t feats := by
  induction feats with
  | nil => rfl
  | cons p rest ih =>
      simp only [scanResults] at ih ⊢
      cases h : sim q p.2 with
      | some s =>
          by_cases hts : t ≤ s <;>
            simp [List.filter_cons, List.filterMap_cons, h, hts, ih]
      | none =>
          simp [List.filter_cons, List.filterMap_cons, h, ih]

/-- Reduction of `build_index` on its main path (snapshot load gives
features `bF` and metadata `bM`, listing nonempty, some files new). -/
theorem buildIndexG_main {Feat : Type} (env : DriveEnv Feat) (cache : CacheFile Feat)
    (st : GEngineState Feat) (bF : List (String × Feat)) (bM : List (String × FileMeta))
    (hload : loadCache cache = .ok ⟨bF, bM⟩)
    (hne : env.listing.isEmpty = false)
    (hnew : (newFilesOf env bM).isEmpty = false) :
    buildIndexG env cache st = .ok
      (⟨(processFiles env (newFilesOf env bM) bF bM []).1,
        (processFiles env (newFilesOf env bM) bF bM []).2.1,
        true⟩,
       writeCache
        ⟨(processFiles env (newFilesOf env bM) bF bM []).1,
         (processFiles env (newFilesOf env bM) bF bM []).2.1⟩,
       (processFiles env (newFilesOf env bM) bF bM []).2.2 ++
         [Msg.indexedNew (newFilesOf env bM).length]) := by
  have hnew' : newFilesOf env bM ≠ [] := by
    intro he
    rw [he] at hnew
    simp at hnew
  simp [buildIndexG, hload, hne, hnew', Bind.bind, Except.bind]
  rfl

/-- C2: with distinct identifiers, a listing of N items that process
successfully plus one whose bytes fail to decode yields — without the
per-item exception reaching the caller — a successful build whose index
has exactly N entries and whose log holds exactly one warning; and
`search` excludes exactly the entries whose comparison raises, leaving
the rest unaffected. -/
theorem claim2_per_item_errors_isolated (Feat : Type) (env : DriveEnv Feat)
    (N : Nat) (st : GEngineState Feat)
    (hnd : (env.listing.map (fun f => f.id)).Nodup)
    (hok : (env.listing.filter (fun f => (processOne env f).isSome)).length = N)
    (hbad : (env.listing.filter (fun f => (processOne env f).isNone)).length = 1) :
    (∃ st' c msgs, buildIndexG env none st = .ok (st', c, msgs) ∧
      st'.features.length = N ∧ (msgs.filter isWarn).length = 1) ∧
    (∀ (sim : Feat → Feat → Option ℚ) (q : Feat) (t : ℚ) (lim : Nat)
      (feats : List (String × Feat)),
      search sim q t lim (feats.filter (fun p => (sim q p.2).isSome)) =
        search sim q t lim feats) := by
  constructor
  · have hne : env.listing.isEmpty = false := by
      cases hl : env.listing with
      | nil => rw [hl] at hbad; simp at hbad
      | cons a t => simp
    have hallnew : newFilesOf env ([] : List (String × FileMeta)) = env.listing := by
      refine List.filter_eq_self.mpr ?_
      intro f _
      simp [lookupA]
    have hnew : (newFilesOf env ([] : List (String × FileMeta))).isEmpty = false := by
      rw [hallnew]
      exact hne
    have hmain := buildIndexG_main env none st [] [] rfl hne hnew
    rw [hallnew] at hmain
    refine ⟨_, _, _, hmain, ?_, ?_⟩
    · rw [processFiles_length env env.listing [] [] [] hnd (fun f _ => rfl)]
      simpa using hok
    · rw [processFiles_msgs]
      simp only [List.nil_append]
      have hwarnall :
          (env.listing.filterMap (fun f =>
            match processOne env f with
            | some _ => none
            | none => some (Msg.errorProcessing f.name))).filter isWarn =
          env.listing.filterMap (fun f =>
            match processOne env f with
            | some _ => none
            | none => some (Msg.errorProcessing f.name)) := by
        refine List.filter_eq_self.mpr ?_
        intro m hm
        rcases List.mem_filterMap.mp hm with ⟨f, _, hf⟩
        cases h : processOne env f with
        | some v => rw [h] at hf; cases hf
        | none =>
            rw [h] at hf
            have hm' : m = Msg.errorProcessing f.name := by
              injection hf with hh
              exact hh.symm
            simp [hm', isWarn]
      have hpt : ∀ f ∈ env.listing,
          ((match processOne env f with
            | some _ => (none : Option Msg)
            | none => some (Msg.errorProcessing f.name))).isSome
            = (processOne env f).isNone := by
        intro f _
        cases h : processOne env f <;> simp [h]
      rw [List.filter_append, hwarnall]
      have hlast : ([Msg.indexedNew env.listing.length].filter isWarn) = [] := by
        simp [isWarn]
      rw [hlast, List.append_nil, length_filterMap_eq, List.filter_congr hpt, hbad]
  · intro sim q t lim feats
    simp [search, scanResults_filter_isSome]

/-- Concrete environment for the C2 witness: three distinct files, of
which exactly the one with identifier `"b"` fails to decode. -/
def envC2 : DriveEnv Nat :=
  ⟨[⟨"a", "A", "image/png"⟩, ⟨"b", "B", "image/png"⟩, ⟨"c", "C", "image/png"⟩],
   fun fid => if fid = "b" then some [1] else some [0],
   fun buf => if buf = [1] then none else some 0,
   fun _ _ => none⟩

/-- Fresh engine state used by several witnesses. -/
def st0 : GEngineState Nat := ⟨[], [], false⟩

/-- Witness for C2: on the concrete listing with 2 good items and 1 bad
item the build succeeds with a 2-entry index and one warning. -/
theorem claim2_witness :
    ((envC2.listing.map (fun f => f.id)).Nodup ∧
     (envC2.listing.filter (fun f => (processOne envC2 f).isSome)).length = 2 ∧
     (envC2.listing.filter (fun f => (processOne envC2 f).isNone)).length = 1) ∧
    ((∃ st' c msgs, buildIndexG envC2 none st0 = .ok (st', c, msgs) ∧
       st'.features.length = 2 ∧ (msgs.filter isWarn).length = 1) ∧
     (∀ (sim : Nat → Nat → Option ℚ) (q : Nat) (t : ℚ) (lim : Nat)
       (feats : List (String × Nat)),
       search sim q t lim (feats.filter (fun p => (sim q p.2).isSome)) =
         search sim q t lim feats)) :=
  ⟨⟨by decide, by decide, by decide⟩,
   claim2_per_item_errors_isolated Nat envC2 2 st0 (by decide) (by decide) (by decide)⟩

/-- When a predicate holds for a member that is unique with that
property, `find?` returns exactly that member. -/
theorem find?_eq_some_of_unique {α : Type _} (p : α → Bool) (l : List α) (a : α)
    (ha : a ∈ l) (hp : p a = true) (huniq : ∀ b ∈ l, p b = true → b = a) :
    l.find? p = some a := by
  induction l with
  | nil => cases ha
  | cons x xs ih =>
      by_cases hx : p x = true
      · have hxa : x = a := huniq x (List.mem_cons_self x xs) hx
        rw [List.find?_cons_of_pos xs hx, hxa]
      · rw [List.find?_cons_of_neg xs hx]
        rcases List.mem_cons.mp ha with rfl | ha'
        · exact absurd hp hx
        · exact ih ha' (fun b hb hpb => huniq b (List.mem_cons_of_mem _ hb) hpb)

/-- Lookup in the feature dict produced by the indexing loop: when the
processed identifiers are distinct, an identifier that occurs in the
batch ends up mapped to its (successful) processing result, and every
other key keeps its prior binding. -/
theorem processFiles_lookup {Feat : Type} (env : DriveEnv Feat) (files : List DriveFile)
    (feats : List (String × Feat)) (meta : List (String × FileMeta)) (msgs : List Msg)
    (k : String) (hnd : (files.map (fun f => f.id)).Nodup) :
    lookupA k (processFiles env files feats meta msgs).1 =
      match files.find? (fun f => f.id == k) with
      | some f =>
          match processOne env f with
          | some v => some v
          | none => lookupA k feats
      | none => lookupA k feats := by
  induction files generalizing feats meta msgs with
  | nil => simp [processFiles, List.find?]
  | cons f rest ih =>
      have hnd2 : (f.id :: rest.map (fun g => g.id)).Nodup := by
        simpa only [List.map_cons] using hnd
      have hnotin : f.id ∉ rest.map (fun g => g.id) := (List.nodup_cons.mp hnd2).1
      have hnd' : (rest.map (fun g => g.id)).Nodup := (List.nodup_cons.mp hnd2).2
      by_cases hk : f.id = k
      · have hbk : (f.id == k) = true := by simp [hk]
        rw [List.find?_cons_of_pos rest hbk]
        have hrest : rest.find? (fun g => g.id == k) = none := by
          refine List.find?_eq_none.mpr ?_
          intro g hg hbg
          have hgk : g.id = f.id := by
            rw [hk]
            simpa using hbg
          exact hnotin (hgk ▸ List.mem_map_of_mem (fun x => x.id) hg)
        cases hv : processOne env f with
        | some v =>
            simp only [processFiles, hv]
            rw [ih (insertA f.id v feats) (insertA f.id ⟨f.name, f.mime⟩ meta) msgs hnd',
              hrest]
            simp [lookupA_insertA, hk]
        | none =>
            simp only [processFiles, hv]
            rw [ih feats meta (msgs ++ [Msg.errorProcessing f.name]) hnd', hrest]
      · have hbk : ¬ (f.id == k) = true := by simp [hk]
        rw [List.find?_cons_of_neg rest hbk]
        cases hv : processOne env f with
        | some v =>
            simp only [processFiles, hv]
            rw [ih (insertA f.id v feats) (insertA f.id ⟨f.name, f.mime⟩ meta) msgs hnd']
            cases hr : rest.find? (fun g => g.id == k) <;> simp [lookupA_insertA, hk]
        | none =>
            simp only [processFiles, hv]
            rw [ih feats meta (msgs ++ [Msg.errorProcessing f.name]) hnd']

/-- With an absent prior snapshot every listed file is new. -/
theorem newFilesOf_nil_meta {Feat : Type} (env : DriveEnv Feat) :
    newFilesOf env ([] : List (String × FileMeta)) = env.listing :=
  List.filter_eq_self.mpr (fun _ _ => by simp [lookupA])

/-- Reduction of `build_index` when the listing is empty: the loaded
snapshot is kept, nothing is processed, nothing is saved. -/
theorem buildIndexG_empty_listing {Feat : Type} (env : DriveEnv Feat)
    (cache : CacheFile Feat) (st : GEngineState Feat) (bF : List (String × Feat))
    (bM : List (String × FileMeta)) (hload : loadCache cache = .ok ⟨bF, bM⟩)
    (hemp : env.listing.isEmpty = true) :
    buildIndexG env cache st = .ok (⟨bF, bM, st.isIndexed⟩, cache, [Msg.noImages]) := by
  simp [buildIndexG, hload, hemp, Bind.bind, Except.bind]
  rfl

/-- Reduction of `build_index` when every listed file is already
indexed: the loaded snapshot is kept unchanged. -/
theorem buildIndexG_all_indexed {Feat : Type} (env : DriveEnv Feat)
    (cache : CacheFile Feat) (st : GEngineState Feat) (bF : List (String × Feat))
    (bM : List (String × FileMeta)) (hload : loadCache cache = .ok ⟨bF, bM⟩)
    (hne : env.listing.isEmpty = false)
    (hnew : (newFilesOf env bM).isEmpty = true) :
    buildIndexG env cache st = .ok (⟨bF, bM, true⟩, cache, [Msg.allIndexed]) := by
  simp [buildIndexG, hload, hne, hnew, Bind.bind, Except.bind]
  rfl

/-- When no listed file has identifier `k`, a snapshot satisfying the
no-stale-entry hypotheses holds no feature for `k` either. -/
theorem stale_lookup_none {Feat : Type} (env : DriveEnv Feat) (blob : Blob Feat)
    (k : String)
    (hb : ∀ p ∈ blob.metadata, ∃ f ∈ env.listing, f.id = p.1)
    (hd : ∀ p ∈ blob.features, (lookupA p.1 blob.metadata).isSome = true)
    (hfind : env.listing.find? (fun f => f.id == k) = none) :
    lookupA k blob.features = none := by
  by_contra hcon
  have hs : (lookupA k blob.features).isSome = true := Option.ne_none_iff_isSome.mp hcon
  rcases (lookupA_isSome_iff k blob.features).mp hs with ⟨p, hp, hpk⟩
  have hm : (lookupA p.1 blob.metadata).isSome = true := hd p hp
  rcases (lookupA_isSome_iff p.1 blob.metadata).mp hm with ⟨pm, hpm, hpmk⟩
  rcases hb pm hpm with ⟨f, hf, hfid⟩
  exact List.find?_eq_none.mp hfind f hf (by simp [hfid, hpmk, hpk])

/-- C3 counterexample: with a prior snapshot holding a stale entry
(identifier `"b"`, absent from the listing), the incremental build keeps
the stale feature while the forced full rebuild drops it, so the two
final mappings differ — refuting the claim for arbitrary prior
snapshots. -/
theorem claim3_counterexample :
    lookupA "b" (featuresOf (buildIndexG
      (⟨[⟨"a", "A", "image/png"⟩], fun _ => some [0], fun _ => some 7,
        fun _ _ => none⟩ : DriveEnv Nat)
      (writeCache ⟨[("b", 9)], [("b", ⟨"B", "image/png"⟩)]⟩) ⟨[], [], false⟩)) ≠
    lookupA "b" (featuresOf (fullRebuildG
      (⟨[⟨"a", "A", "image/png"⟩], fun _ => some [0], fun _ => some 7,
        fun _ _ => none⟩ : DriveEnv Nat) ⟨[], [], false⟩)) := by
  decide

/-- C3 amended: the incremental build and the forced full rebuild
produce extensionally equal feature mappings — regardless of insertion
order — provided the prior snapshot is consistent with the listing and
extractor: listed identifiers are distinct, every snapshot metadata key
occurs in the listing (no stale entries), every already-indexed listed
file reprocesses to exactly its snapshot feature, and every snapshot
feature key has snapshot metadata. -/
theorem claim3_amended_incremental_eq_full (Feat : Type) (env : DriveEnv Feat)
    (blob : Blob Feat) (st : GEngineState Feat)
    (hnd : (env.listing.map (fun f => f.id)).Nodup)
    (hb : ∀ p ∈ blob.metadata, ∃ f ∈ env.listing, f.id = p.1)
    (hc : ∀ f ∈ env.listing, (lookupA f.id blob.metadata).isSome = true →
      processOne env f = lookupA f.id blob.features)
    (hd : ∀ p ∈ blob.features, (lookupA p.1 blob.metadata).isSome = true) :
    ∀ k, lookupA k (featuresOf (buildIndexG env (writeCache blob) st)) =
      lookupA k (featuresOf (fullRebuildG env st)) := by
  intro k
  have hloadI : loadCache (writeCache blob) = .ok ⟨blob.features, blob.metadata⟩ := rfl
  have hloadF : loadCache (none : CacheFile Feat) = .ok ⟨[], []⟩ := rfl
  cases hemp : env.listing.isEmpty with
  | true =>
      have hfind : env.listing.find? (fun f => f.id == k) = none := by
        rw [List.isEmpty_iff.mp hemp]
        rfl
      rw [fullRebuildG, buildIndexG_empty_listing env (writeCache blob) st
        blob.features blob.metadata hloadI hemp,
        buildIndexG_empty_listing env none st [] [] hloadF hemp]
      simp only [featuresOf]
      rw [stale_lookup_none env blob k hb hd hfind]
      simp [lookupA]
  | false =>
      have hnewF : (newFilesOf env ([] : List (String × FileMeta))).isEmpty = false := by
        rw [newFilesOf_nil_meta]
        exact hemp
      have hfull := buildIndexG_main env none st [] [] hloadF hemp hnewF
      rw [newFilesOf_nil_meta] at hfull
      rw [fullRebuildG, hfull]
      simp only [featuresOf]
      rw [processFiles_lookup env env.listing [] [] [] k hnd]
      cases hnew : (newFilesOf env blob.metadata).isEmpty with
      | true =>
          rw [buildIndexG_all_indexed env (writeCache blob) st blob.features
            blob.metadata hloadI hemp hnew]
          simp only [featuresOf]
          have hall : ∀ g ∈ env.listing, ¬ ((lookupA g.id blob.metadata).isNone = true) :=
            List.filter_eq_nil_iff.mp (List.isEmpty_iff.mp hnew)
          cases hfind : env.listing.find? (fun f => f.id == k) with
          | none =>
              rw [stale_lookup_none env blob k hb hd hfind]
              simp [lookupA]
          | some f =>
              have hfm : f ∈ env.listing := List.mem_of_find?_eq_some hfind
              have hfk : f.id = k := by simpa using List.find?_some hfind
              have hsome : (lookupA f.id blob.metadata).isSome = true := by
                cases hcase : lookupA f.id blob.metadata with
                | none => exact absurd (by simp [hcase]) (hall f hfm)
                | some m => simp
              have hlk : lookupA k blob.features = processOne env f := by
                rw [← hfk]
                exact (hc f hfm hsome).symm
              rw [hlk]
              cases hv : processOne env f <;> simp [hv, lookupA]
      | false =>
          have hincr := buildIndexG_main env (writeCache blob) st blob.features
            blob.metadata hloadI hemp hnew
          rw [hincr]
          simp only [featuresOf]
          have hndNew : ((newFilesOf env blob.metadata).map (fun f => f.id)).Nodup :=
            List.Nodup.sublist (List.Sublist.map _ (List.filter_sublist _)) hnd
          rw [processFiles_lookup env (newFilesOf env blob.metadata) blob.features
            blob.metadata [] k hndNew]
          cases hfind : env.listing.find? (fun f => f.id == k) with
          | none =>
              have hfindN : (newFilesOf env blob.metadata).find? (fun f => f.id == k)
                  = none :=
                List.find?_eq_none.mpr (fun g hg =>
                  List.find?_eq_none.mp hfind g (List.mem_of_mem_filter hg))
              rw [hfindN]
              rw [stale_lookup_none env blob k hb hd hfind]
              simp [lookupA]
          | some f =>
              have hfm : f ∈ env.listing := List.mem_of_find?_eq_some hfind
              have hfk : f.id = k := by simpa using List.find?_some hfind
              by_cases hmetaf : (lookupA f.id blob.metadata).isSome = true
              · have hfnotnew : f ∉ newFilesOf env blob.metadata := by
                  intro hmem
                  have hno := (List.mem_filter.mp hmem).2
                  rw [Option.isNone_iff_eq_none] at hno
                  rw [hno] at hmetaf
                  cases hmetaf
                have hfindN : (newFilesOf env blob.metadata).find? (fun g => g.id == k)
                    = none := by
                  refine List.find?_eq_none.mpr ?_
                  intro g hg hbg
                  have hgid : g.id = k := by simpa using hbg
                  have hgl : g ∈ env.listing := List.mem_of_mem_filter hg
                  have hgf : g = f :=
                    List.inj_on_of_nodup_map hnd hgl hfm (by rw [hgid, hfk])
                  exact hfnotnew (hgf ▸ hg)
                rw [hfindN]
                have hlk : lookupA k blob.features = processOne env f := by
                  rw [← hfk]
                  exact (hc f hfm hmetaf).symm
                rw [hlk]
                cases hv : processOne env f <;> simp [hv, lookupA]
              · have hfin : f ∈ newFilesOf env blob.metadata := by
                  refine List.mem_filter.mpr ⟨hfm, ?_⟩
                  cases hcase : lookupA f.id blob.metadata with
                  | none => simp
                  | some m => exact absurd (by simp [hcase]) hmetaf
                have hfindN : (newFilesOf env blob.metadata).find? (fun g => g.id == k)
                    = some f := by
                  refine find?_eq_some_of_unique _ _ f hfin (by simp [hfk]) ?_
                  intro g hg hbg
                  have hgid : g.id = k := by simpa using hbg
                  exact List.inj_on_of_nodup_map hnd (List.mem_of_mem_filter hg) hfm
                    (by rw [hgid, hfk])
                rw [hfindN]
                cases hv : processOne env f with
                | some v => simp [hv]
                | none =>
                    have hnoneF : lookupA k blob.features = none := by
                      by_contra hcon
                      have hs := Option.ne_none_iff_isSome.mp hcon
                      rcases (lookupA_isSome_iff k blob.features).mp hs with ⟨p, hp, hpk⟩
                      have hds := hd p hp
                      rw [hpk, ← hfk] at hds
                      exact hmetaf hds
                    simp [hv, hnoneF, lookupA]

/-- Concrete environment for the C3 witness: one listed file that
processes successfully. -/
def envC3 : DriveEnv Nat :=
  ⟨[⟨"a", "A", "image/png"⟩], fun _ => some [0], fun _ => some 7, fun _ _ => none⟩

/-- Consistent prior snapshot for the C3 witness: it indexes exactly the
listed file with exactly its fresh extraction result. -/
def blobC3 : Blob Nat := ⟨[("a", 7)], [("a", ⟨"A", "image/png"⟩)]⟩

/-- Witness for the amended C3 on a concrete consistent snapshot. -/
theorem claim3_witness :
    ((envC3.listing.map (fun f => f.id)).Nodup ∧
     (∀ p ∈ blobC3.metadata, ∃ f ∈ envC3.listing, f.id = p.1) ∧
     (∀ f ∈ envC3.listing, (lookupA f.id blobC3.metadata).isSome = true →
        processOne envC3 f = lookupA f.id blobC3.features) ∧
     (∀ p ∈ blobC3.features, (lookupA p.1 blobC3.metadata).isSome = true)) ∧
    (∀ k, lookupA k (featuresOf (buildIndexG envC3 (writeCache blobC3) st0)) =
      lookupA k (featuresOf (fullRebuildG envC3 st0))) :=
  ⟨⟨by decide, by decide, by decide, by decide⟩,
   claim3_amended_incremental_eq_full Nat envC3 blobC3 st0 (by decide) (by decide)
     (by decide) (by decide)⟩

/-- C7 counterexample: at a concrete environment and fresh state,
`build_index` hands back no `BuildReport` — in the source every
`return` is bare, so the caller always receives `None`. -/
theorem claim7_counterexample :
    (@buildIndexReturnValue Nat BuildReport
      ⟨[⟨"a", "A", "image/png"⟩], fun _ => some [0], fun _ => some 7, fun _ _ => none⟩
      none ⟨[], [], false⟩).isSome = false := rfl

/-- C7 amended: `build_index` returns `None` to its caller; the count
of newly processed files is reported only through the UI success
message emitted at the end of a build that found new files. -/
theorem claim7_amended_no_report (Feat : Type) (env : DriveEnv Feat)
    (cache : CacheFile Feat) (st : GEngineState Feat) (blob : Blob Feat)
    (hload : loadCache cache = .ok blob)
    (hne : env.listing.isEmpty = false)
    (hnew : (newFilesOf env blob.metadata).isEmpty = false) :
    (@buildIndexReturnValue Feat BuildReport env cache st) = none ∧
    ∃ st' c msgs, buildIndexG env cache st = .ok (st', c, msgs) ∧
      msgs.getLast? = some (Msg.indexedNew (newFilesOf env blob.metadata).length) := by
  refine ⟨rfl, ?_⟩
  have hmain := buildIndexG_main env cache st blob.features blob.metadata
    (by rw [hload]) hne hnew
  exact ⟨_, _, _, hmain, List.getLast?_concat _⟩

/-- Witness for the amended C7 on a concrete one-file environment. -/
theorem claim7_witness :
    (loadCache (none : CacheFile Nat) = .ok ⟨[], []⟩ ∧
     envC3.listing.isEmpty = false ∧
     (newFilesOf envC3 ([] : List (String × FileMeta))).isEmpty = false) ∧
    ((@buildIndexReturnValue Nat BuildReport envC3 none st0) = none ∧
     ∃ st' c msgs, buildIndexG envC3 none st0 = .ok (st', c, msgs) ∧
       msgs.getLast? = some (Msg.indexedNew (newFilesOf envC3 ([] : List (String × FileMeta))).length)) :=
  ⟨⟨rfl, by decide, by decide⟩,
   claim7_amended_no_report Nat envC3 none st0 ⟨[], []⟩ rfl (by decide) (by decide)⟩

/-- A decoded colour image as produced by `cv2.imdecode(...,
IMREAD_COLOR)`: some height and width, and a uint8 BGR pixel at each
coordinate (uint8 channels are modelled as `Fin 256`). -/
structure RawImage where
  h : Nat
  w : Nat
  pix : Nat → Nat → Fin 256 × Fin 256 × Fin 256

/-- Grayscale conversion `cv2.cvtColor(img, COLOR_BGR2GRAY)`:
Y = 0.299 R + 0.587 G + 0.114 B on uint8 channels, modelled with
rounded integer arithmetic on a (B, G, R) pixel. -/
def grayPix (p : Fin 256 × Fin 256 × Fin 256) : Nat :=
  (114 * p.1.val + 587 * p.2.1.val + 299 * p.2.2.val + 500) / 1000

/-- The shared `preprocess_image` / `preprocess_image_from_buffer`
pipeline: decode the raw bytes (`None` → raised decode error), convert
to a single grayscale channel, and resize to the fixed 256×256 canonical
grid. `cv2.resize` is modelled as deterministic coordinate sampling of
the grayscale image, so every output value is a grayscale value of the
input. -/
def preprocessBuffer (decode : Bytes → Option RawImage) (buf : Bytes) :
    Option (List (List Nat)) :=
  (decode buf).map (fun img =>
    (List.range 256).map (fun i =>
      (List.range 256).map (fun j =>
        grayPix (img.pix (i * img.h / 256) (j * img.w / 256)))))

/-- The canonical feature shape: a 256-row grid whose rows all have 256
cells. -/
def shape256 (f : List (List Nat)) : Prop :=
  f.length = 256 ∧ ∀ r ∈ f, r.length = 256

/-- The canonical value range: every cell is a uint8 grayscale value. -/
def range255 (f : List (List Nat)) : Prop :=
  ∀ r ∈ f, ∀ v ∈ r, v ≤ 255

/-- Feature entries held by a snapshot file (empty when the file is
absent or undecodable). -/
def cacheFeats {Feat : Type} : CacheFile Feat → List (String × Feat)
  | some (some b) => b.features
  | _ => []

/-- Grayscale of uint8 channels is a uint8 value. -/
theorem grayPix_le (p : Fin 256 × Fin 256 × Fin 256) : grayPix p ≤ 255 := by
  have hb : 114 * p.1.val ≤ 114 * 255 :=
    Nat.mul_le_mul_left 114 (Nat.lt_succ_iff.mp p.1.isLt)
  have hg : 587 * p.2.1.val ≤ 587 * 255 :=
    Nat.mul_le_mul_left 587 (Nat.lt_succ_iff.mp p.2.1.isLt)
  have hr : 299 * p.2.2.val ≤ 299 * 255 :=
    Nat.mul_le_mul_left 299 (Nat.lt_succ_iff.mp p.2.2.isLt)
  have hsum : 114 * p.1.val + 587 * p.2.1.val + 299 * p.2.2.val + 500 ≤ 255500 := by
    omega
  calc grayPix p ≤ 255500 / 1000 := Nat.div_le_div_right hsum
    _ = 255 := by norm_num

/-- The indexing loop preserves any predicate on stored features that
holds of the prior dict and of every successful processing result. -/
theorem processFiles_features_pred {Feat : Type} (env : DriveEnv Feat)
    (P : Feat → Prop) (hP : ∀ f v, processOne env f = some v → P v) :
    ∀ (files : List DriveFile) (feats : List (String × Feat))
      (meta : List (String × FileMeta)) (msgs : List Msg),
      (∀ p ∈ feats, P p.2) →
      ∀ p ∈ (processFiles env files feats meta msgs).1, P p.2 := by
  intro files
  induction files with
  | nil =>
      intro feats meta msgs hfeats p hp
      simpa [processFiles] using hfeats p (by simpa [processFiles] using hp)
  | cons f rest ih =>
      intro feats meta msgs hfeats p hp
      cases hv : processOne env f with
      | some v =>
          rw [processFiles, hv] at hp
          refine ih (insertA f.id v feats) _ _ ?_ p hp
          intro q hq
          rcases mem_insertA hq with rfl | hq'
          · exact hP f v hv
          · exact hfeats q hq'
      | none =>
          rw [processFiles, hv] at hp
          exact ih feats meta _ hfeats p hp

/-- C9: every feature the extraction pipeline produces is a 256×256
single-channel grid of uint8 values, and consequently every indexing
operation whose loaded snapshot already satisfies this invariant leaves
every stored representation with the identical canonical shape and
value range. -/
theorem claim9_canonical_shape :
    (∀ (decode : Bytes → Option RawImage) (buf : Bytes) (f : List (List Nat)),
      preprocessBuffer decode buf = some f → shape256 f ∧ range255 f) ∧
    (∀ (decode : Bytes → Option RawImage) (listing : List DriveFile)
      (fetch : String → Option Bytes)
      (sim : List (List Nat) → List (List Nat) → Option ℚ)
      (cache : CacheFile (List (List Nat))) (st : GEngineState (List (List Nat))),
      (∀ p ∈ cacheFeats cache, shape256 p.2 ∧ range255 p.2) →
      ∀ p ∈ featuresOf (buildIndexG ⟨listing, fetch, preprocessBuffer decode, sim⟩
        cache st), shape256 p.2 ∧ range255 p.2) := by
  have hpre : ∀ (decode : Bytes → Option RawImage) (buf : Bytes) (f : List (List Nat)),
      preprocessBuffer decode buf = some f → shape256 f ∧ range255 f := by
    intro decode buf f hf
    rcases Option.map_eq_some'.mp hf with ⟨img, _, hgrid⟩
    constructor
    · constructor
      · rw [← hgrid]
        simp
      · intro r hr
        rw [← hgrid] at hr
        rcases List.mem_map.mp hr with ⟨i, _, hrow⟩
        rw [← hrow]
        simp
    · intro r hr v hv
      rw [← hgrid] at hr
      rcases List.mem_map.mp hr with ⟨i, _, hrow⟩
      rw [← hrow] at hv
      rcases List.mem_map.mp hv with ⟨j, _, hcell⟩
      rw [← hcell]
      exact grayPix_le _
  refine ⟨hpre, ?_⟩
  intro decode listing fetch sim cache st hcache p hp
  have hP : ∀ (f : DriveFile) (v : List (List Nat)),
      processOne ⟨listing, fetch, preprocessBuffer decode, sim⟩ f = some v →
      shape256 v ∧ range255 v := by
    intro f v hv
    rcases Option.bind_eq_some.mp hv with ⟨buf, _, hext⟩
    exact hpre decode buf v hext
  cases cache with
  | none =>
      cases hemp : listing.isEmpty with
      | true =>
          rw [buildIndexG_empty_listing _ none st [] [] rfl hemp] at hp
          simp [featuresOf] at hp
      | false =>
          cases hnew : (newFilesOf (DriveEnv.mk listing fetch
              (preprocessBuffer decode) sim) ([] : List (String × FileMeta))).isEmpty with
          | true =>
              rw [buildIndexG_all_indexed _ none st [] [] rfl hemp hnew] at hp
              simp [featuresOf] at hp
          | false =>
              rw [buildIndexG_main _ none st [] [] rfl hemp hnew] at hp
              simp only [featuresOf] at hp
              exact processFiles_features_pred _ _ hP _ [] [] [] (by intro q hq; cases hq)
                p hp
  | some o =>
      cases o with
      | none =>
          have : buildIndexG ⟨listing, fetch, preprocessBuffer decode, sim⟩
              (some none) st = .error () := rfl
          rw [this] at hp
          simp [featuresOf] at hp
      | some b =>
          have hbf : ∀ q ∈ b.features, shape256 q.2 ∧ range255 q.2 := by
            intro q hq
            exact hcache q (by simpa [cacheFeats] using hq)
          cases hemp : listing.isEmpty with
          | true =>
              rw [buildIndexG_empty_listing _ (some (some b)) st b.features b.metadata
                rfl hemp] at hp
              simp only [featuresOf] at hp
              exact hbf p hp
          | false =>
              cases hnew : (newFilesOf (DriveEnv.mk listing fetch
                  (preprocessBuffer decode) sim) b.metadata).isEmpty with
              | true =>
                  rw [buildIndexG_all_indexed _ (some (some b)) st b.features b.metadata
                    rfl hemp hnew] at hp
                  simp only [featuresOf] at hp
                  exact hbf p hp
              | false =>
                  rw [buildIndexG_main _ (some (some b)) st b.features b.metadata
                    rfl hemp hnew] at hp
                  simp only [featuresOf] at hp
                  exact processFiles_features_pred _ _ hP _ b.features b.metadata []
                    hbf p hp

/-- Concrete decoder for the C9 witness: every buffer decodes to a 1×1
BGR image. -/
def decodeC9 : Bytes → Option RawImage :=
  fun _ => some ⟨1, 1, fun _ _ => (⟨10, by norm_num⟩, ⟨20, by norm_num⟩, ⟨30, by norm_num⟩)⟩

/-- The feature the C9 witness pipeline extracts. -/
def featC9 : List (List Nat) := (preprocessBuffer decodeC9 []).getD []

/-- Witness for C9: the concrete extraction yields a canonical grid, and
a concrete one-file build from an absent snapshot stores only canonical
grids. -/
theorem claim9_witness :
    (shape256 featC9 ∧ range255 featC9) ∧
    (∀ p ∈ featuresOf (buildIndexG
        (⟨[⟨"a", "A", "image/png"⟩], fun _ => some [], preprocessBuffer decodeC9,
          fun _ _ => none⟩ : DriveEnv (List (List Nat)))
        none ⟨[], [], false⟩),
      shape256 p.2 ∧ range255 p.2) :=
  ⟨claim9_canonical_shape.1 decodeC9 [] featC9 rfl,
   claim9_canonical_shape.2 decodeC9 [⟨"a", "A", "image/png"⟩] (fun _ => some [])
     (fun _ _ => none) none ⟨[], [], false⟩ (fun p hp => absurd hp (List.not_mem_nil p))⟩

end SearchApp
